import Mathlib

/-!
Verification of the f4f-leads discovery and enrichment pipeline.

The first part embeds the TypeScript frontend sources
(`src/frontend/src/lib/n8n.ts`, `src/frontend/src/lib/finder.ts`,
`src/frontend/src/pages/ScrapingConsole.tsx`) as Lean functions.
The second part models the backend pipeline components (Deduplicator,
EmailVerifier, DomainResolver, run state machine), whose Python sources
are not part of this tree; those definitions are modelled from the spec
and carry a `Modelled from the spec:` doc comment.
-/

/-! ## Embedding of `src/frontend/src/lib/n8n.ts` (`suggestReplies`) -/

/-- The `outcome` union type of `AISuggestReplyResponse` suggestions:
`'f4f' | 'figgyz' | 'not_interested'`. -/
inductive Outcome where
  | f4f
  | figgyz
  | not_interested
deriving DecidableEq

/-- One element of the raw n8n `choices` array: `{type, subject, body}`. -/
structure Choice where
  type : String
  subject : String
  body : String
deriving DecidableEq

/-- One element of the transformed `suggestions` array:
`{subject, body, outcome}`. -/
structure Suggestion where
  subject : String
  body : String
  outcome : Outcome
deriving DecidableEq

/-- Substring test on character lists: does `s` contain `pat` as a
contiguous sublist?  This models the JavaScript
`String.prototype.includes` used via `typeLower.includes(...)`. -/
def listContainsSub (pat : List Char) : List Char → Bool
  | [] => pat.isEmpty
  | c :: t => pat.isPrefixOf (c :: t) || listContainsSub pat t

/-- `s` contains `pat` as a substring (JavaScript `s.includes(pat)`). -/
def strContainsSub (s pat : String) : Bool :=
  listContainsSub pat.data s.data

/-- Lower-casing as JavaScript `toLowerCase` performs it on the ASCII
strings in play, defined character-wise so that it is kernel-computable. -/
def lowerStr (s : String) : String :=
  String.mk (s.data.map Char.toLower)

/-- Embeds the outcome-mapping `if`/`else if` chain of
`n8nApi.suggestReplies` (n8n.ts lines 58–68), including the redundant
`'first 4 figures' / 'f4f'` branch and the `'f4f'` default. -/
def outcomeOfType (t : String) : Outcome :=
  let typeLower := lowerStr t
  if strContainsSub typeLower "figgyz" then Outcome.figgyz
  else if strContainsSub typeLower "decline" || strContainsSub typeLower "not interested" then
    Outcome.not_interested
  else if strContainsSub typeLower "first 4 figures" || strContainsSub typeLower "f4f" then
    Outcome.f4f
  else Outcome.f4f

/-- The outcome precedence as the spec describes it: a type containing
`figgyz` maps to `figgyz`; otherwise one containing `decline` or
`not interested` maps to `not_interested`; every other type maps to
`f4f`. -/
def specOutcome (t : String) : Outcome :=
  let typeLower := lowerStr t
  if strContainsSub typeLower "figgyz" then Outcome.figgyz
  else if strContainsSub typeLower "decline" || strContainsSub typeLower "not interested" then
    Outcome.not_interested
  else Outcome.f4f

/-- Embeds the response transformation of `n8nApi.suggestReplies`
(n8n.ts lines 57–75): one suggestion per raw choice, keeping `subject`
and `body` and mapping `type` to an outcome. -/
def suggestReplies (choices : List Choice) : List Suggestion :=
  choices.map fun c =>
    { subject := c.subject, body := c.body, outcome := outcomeOfType c.type }

/-! ## Embedding of `src/frontend/src/pages/ScrapingConsole.tsx` -/

/-- JavaScript `String.prototype.split` with a single-character
separator: `"".split(sep)` is `[""]`, adjacent separators produce empty
pieces. -/
def splitCharList (sep : Char) : List Char → List (List Char)
  | [] => [[]]
  | c :: t =>
    match splitCharList sep t with
    | [] => [[]]
    | h :: rest => if c = sep then [] :: h :: rest else (c :: h) :: rest

/-- JavaScript `String.prototype.trim` on the ASCII strings in play:
strip leading and trailing whitespace. -/
def trimChars (l : List Char) : List Char :=
  ((l.dropWhile Char.isWhitespace).reverse.dropWhile Char.isWhitespace).reverse

/-- Embeds the brand parsing in `handleStartCompetitors`
(ScrapingConsole.tsx lines 117–120):
`competitorBrands.split(',').map(b => b.trim()).filter(Boolean)`. -/
def parseBrands (s : String) : List String :=
  ((splitCharList ',' s.data).map (fun b => String.mk (trimChars b))).filter
    (fun b => b ≠ "")

/-- Embeds the `brands` query parameter produced by
`handleStartCompetitors` (lines 121, 131–133): `none` models the early
`return` when no non-empty brand remains (no request is issued);
otherwise the parameter is `brands.join(',')` (the value handed to
`encodeURIComponent`). -/
def competitorBrandsParam (s : String) : Option String :=
  let brands := parseBrands s
  if brands.isEmpty then none
  else some (String.intercalate "," brands)

/-- Embeds the log-accumulation updater registered for `log` events
(ScrapingConsole.tsx line 144):
`setCompetitorLogs(prev => (prev ? prev + "\n" + data : String(data)))`.
A non-empty string is truthy in JavaScript, so the separator is added
exactly when the accumulated log is non-empty. -/
def appendLogEvent (prev data : String) : String :=
  if prev ≠ "" then prev ++ "\n" ++ data else data

/-- The displayed run log after a sequence of `log` events has been
delivered in order: the state starts at `''` (line 126,
`setCompetitorLogs('')`) and each event applies `appendLogEvent`. -/
def displayedLog (events : List String) : String :=
  events.foldl appendLogEvent ""

/-- The join described by the spec: all payloads joined in arrival order
by single newline characters, the first without a leading newline. -/
def joinLines : List String → String
  | [] => ""
  | [d] => d
  | d :: ds => d ++ "\n" ++ joinLines ds

/-! ## Embedding of `src/frontend/src/lib/finder.ts` (`replaceTemplateVariables`)

`replaceTemplateVariables` builds, for each key of the variables
object, the regex `new RegExp('\\{\\{' + key + '\\}\\}', 'g')` and
applies `result.replace(regex, value)`.  The pattern source is
`\{\{`, the key spliced in verbatim, then `\}\}`.  When every
character of the key is regex-literal — none is an ECMAScript
`SyntaxCharacter` (`^ $ \ . * + ? ( ) [ ] { } |`, the `regexLit`
predicate below) — each spliced character is a `PatternCharacter`
matching itself, so the whole regex denotes exactly the literal text
`{{key}}`, and that literal-scan semantics is what `jsReplaceAll`
implements.  A key containing a metacharacter behaves differently in
the real code (for key `a.b` the regex `\{\{a.b\}\}` also matches
`{{axb}}`; for key `a(b` the `new RegExp` call throws a
`SyntaxError`): such keys are outside this embedding, and every
theorem below about `replaceTemplateVariables` carries the `regexLit`
hypothesis on the map's keys, so nothing is asserted about them.  The
frontend itself only ever passes the literal keys `name`, `company`,
`email`.

The replacement string is processed by the ECMAScript
`GetSubstitution` rules: `$$`, `$&`, `$` + backquote and
`$` + apostrophe are special.  A pattern of this shape has no capture
groups, so `$n` and `$<name>` sequences stay literal, which the
scanner below reproduces by emitting an unrecognized `$` sequence
unchanged. -/

/-- The left-brace character (written via its code point, `{`). -/
def lbrace : Char := Char.ofNat 123

/-- The right-brace character (written via its code point, `}`). -/
def rbrace : Char := Char.ofNat 125

/-- The backquote character. -/
def backquoteChar : Char := Char.ofNat 96

/-- The apostrophe character. -/
def aposChar : Char := Char.ofNat 39

/-- ECMAScript `GetSubstitution` for a string replacement and a pattern
with no capture groups: `before` is the portion of the subject before
the match, `matched` the matched text, `after` the portion after it. -/
def expandRepl (before matched after : List Char) : List Char → List Char
  | [] => []
  | c :: rest =>
    if c = '$' then
      match rest with
      | [] => ['$']
      | c2 :: rest2 =>
        if c2 = '$' then '$' :: expandRepl before matched after rest2
        else if c2 = '&' then matched ++ expandRepl before matched after rest2
        else if c2 = backquoteChar then before ++ expandRepl before matched after rest2
        else if c2 = aposChar then after ++ expandRepl before matched after rest2
        else '$' :: c2 :: expandRepl before matched after rest2
    else c :: expandRepl before matched after rest

/-- Global (`'g'` flag) leftmost, non-overlapping replacement of the
literal pattern `pat` by the `GetSubstitution` expansion of `repl`.
`seen` accumulates the portion of the subject already consumed (the
`$`-backquote context).  The pattern `{{key}}` is never empty; the
`pat ≠ []` guard only serves termination. -/
def replaceGo (pat repl : List Char) : List Char → List Char → List Char
  | _, [] => []
  | seen, c :: t =>
    if h : pat.isPrefixOf (c :: t) ∧ pat ≠ [] then
      expandRepl seen pat ((c :: t).drop pat.length) repl ++
        replaceGo pat repl (seen ++ pat) ((c :: t).drop pat.length)
    else
      c :: replaceGo pat repl (seen ++ [c]) t
termination_by _ s => s.length
decreasing_by
  · have hp : 0 < pat.length := List.length_pos.mpr h.2
    simp only [List.length_drop, List.length_cons]
    omega
  · simp only [List.length_cons]
    omega

/-- `s.replace(new RegExp(src, 'g'), repl)` for a regex source that
denotes the literal, group-free text `pat` — which `\{\{key\}\}`
does exactly when the key satisfies `regexLit` (see the section
comment); for other keys the real call is not a literal replacement
(or throws) and is not modelled. -/
def jsReplaceAll (s pat repl : String) : String :=
  ⟨replaceGo pat.data repl.data [] s.data⟩

/-- Embeds `replaceTemplateVariables` (finder.ts lines 61–75): the keys
are iterated in object order (`Object.keys(variables).forEach`), an
`undefined` value is turned into `''` by `variables[key] || ''`, and
each step applies the global regex replacement above.  Faithful to the
source exactly for maps whose keys satisfy `regexLit`; metacharacter
keys fall outside the embedding (section comment above). -/
def replaceTemplateVariables (template : String)
    (vars : List (String × Option String)) : String :=
  vars.foldl
    (fun result kv =>
      jsReplaceAll result ("\x7b\x7b" ++ kv.1 ++ "\x7d\x7d") (kv.2.getD ""))
    template

/-- A template segment: literal text or a `{{key}}` placeholder. -/
inductive Seg where
  | lit (s : String)
  | hole (k : String)
deriving DecidableEq

/-- The concrete text of a segment. -/
def renderSeg : Seg → String
  | Seg.lit s => s
  | Seg.hole k => "\x7b\x7b" ++ k ++ "\x7d\x7d"

/-- The concrete text of a segment list. -/
def renderTemplate : List Seg → String
  | [] => ""
  | sg :: segs => renderSeg sg ++ renderTemplate segs

/-- The substitution the claim describes: each placeholder whose key is
in the map becomes the mapped value (`undefined`/empty becoming `''`),
every other segment — literal text and unknown placeholders — is left
unchanged. -/
def substSeg (vars : List (String × Option String)) : Seg → String
  | Seg.lit s => s
  | Seg.hole k =>
    match vars.find? (fun kv => kv.1 = k) with
    | some kv => kv.2.getD ""
    | none => "\x7b\x7b" ++ k ++ "\x7d\x7d"

/-- Simultaneous literal substitution over a segmented template. -/
def specSubst (vars : List (String × Option String)) : List Seg → String
  | [] => ""
  | sg :: segs => substSeg vars sg ++ specSubst vars segs

/-- A string is brace-free when it contains neither `{` nor `}`. -/
def braceFree (s : String) : Prop :=
  lbrace ∉ s.data ∧ rbrace ∉ s.data

instance : DecidablePred braceFree := fun s => by
  unfold braceFree; infer_instance

/-- Sanity of a segmented template: literal text and placeholder keys
contain no brace characters, so the placeholders of the rendered
template are exactly the `hole` segments. -/
def cleanSegs (segs : List Seg) : Prop :=
  ∀ sg ∈ segs, braceFree (match sg with | Seg.lit s => s | Seg.hole k => k)

instance (segs : List Seg) : Decidable (cleanSegs segs) := by
  unfold cleanSegs
  infer_instance

/-- The ECMAScript regex `SyntaxCharacter`s.  A key containing any of
these does not splice into `new RegExp('\\{\\{' + key + '\\}\\}')`
as literal text (and an unbalanced `(` or `[` makes the construction
throw). -/
def regexMetaChars : List Char := "^$\\.*+?()[]|".data ++ [lbrace, rbrace]

/-- Every character of the string is regex-literal, so the regex built
from it denotes exactly the literal text `{{key}}` — the domain on
which `jsReplaceAll` embeds the source's `replace` call. -/
def regexLit (s : String) : Prop := ∀ c ∈ s.data, c ∉ regexMetaChars

instance : DecidablePred regexLit := fun s => by
  unfold regexLit
  infer_instance

/-! ## The backend pipeline, modelled from the spec

The Python sources of the discovery pipeline (`f4f-finder`) are not
part of this tree — only their documentation is.  Everything below is
modelled from the spec (§3–§4.7) and is marked as such. -/

/-- Modelled from the spec: a raw `Candidate` record emitted by a
strategy (§3), with optional resolved domain and a set of brand tags. -/
structure Candidate where
  source_strategy : String
  raw_name : String
  url : String
  domain : Option String
  brand_tags : Finset String
  country_hint : Option String
deriving DecidableEq

/-- Modelled from the spec: a canonical `CompanyRecord` (§3), created
and merged by the Deduplicator. -/
structure CompanyRecord where
  canonical_name : String
  domain : Option String
  country : Option String
  region : Option String
  source : String
  brand_focus : Option String
  product_overlap : Finset String
  status : String
deriving DecidableEq

/-- Modelled from the spec: the Deduplicator grouping key (§4.6) —
the resolved domain if present, otherwise the normalized name combined
with the country/locality hint. -/
inductive DedupKey where
  | byDomain (d : String)
  | byName (n : String) (loc : Option String)
deriving DecidableEq

/-- Modelled from the spec: common legal suffixes stripped by name
normalization (§4.6; the exact list is an open implementation choice,
spec §9). -/
def legalSuffixes : List String :=
  ["inc", "llc", "ltd", "gmbh", "co", "corp", "company"]

/-- Modelled from the spec: normalized company name — lower-cased,
punctuation stripped, legal suffix words removed (§4.6). -/
def normalizeName (s : String) : String :=
  let cleaned := (lowerStr s).data.filter (fun c => c.isAlphanum || c = ' ')
  let words := ((splitCharList ' ' cleaned).map String.mk).filter (fun w => w ≠ "")
  String.intercalate " " (words.filter (fun w => w ∉ legalSuffixes))

/-- Modelled from the spec: the grouping key of a candidate (§4.6). -/
def dedupKey (c : Candidate) : DedupKey :=
  match c.domain with
  | some d => DedupKey.byDomain d
  | none => DedupKey.byName (normalizeName c.raw_name) c.country_hint

/-- Modelled from the spec: the company record a lone candidate turns
into — name, domain and hints copied over, `product_overlap` seeded
with the candidate's brand tags, `source` set to the discovering
strategy (§3, §4.6). -/
def candidateRecord (c : Candidate) : CompanyRecord :=
  { canonical_name := c.raw_name
    domain := c.domain
    country := c.country_hint
    region := none
    source := c.source_strategy
    brand_focus := none
    product_overlap := c.brand_tags
    status := "new" }

/-- Modelled from the spec: merging a new record into the existing one
for the same key (§4.6): `product_overlap` becomes the set union,
`brand_focus` is first-writer-wins, `source` keeps the
earliest-discovered strategy tag, identity fields stay with the
earliest record. -/
def mergeRecords (old fresh : CompanyRecord) : CompanyRecord :=
  { old with
    product_overlap := old.product_overlap ∪ fresh.product_overlap
    brand_focus := old.brand_focus.orElse (fun _ => fresh.brand_focus) }

/-- Modelled from the spec: insert a record into the keyed state,
merging when the key is already present (order of first discovery is
preserved). -/
def insertMerge (k : DedupKey) (r : CompanyRecord) :
    List (DedupKey × CompanyRecord) → List (DedupKey × CompanyRecord)
  | [] => [(k, r)]
  | (k', r') :: rest =>
    if k = k' then (k', mergeRecords r' r) :: rest
    else (k', r') :: insertMerge k r rest

/-- Modelled from the spec: one Deduplicator consumption step. -/
def dedupStep (st : List (DedupKey × CompanyRecord)) (c : Candidate) :
    List (DedupKey × CompanyRecord) :=
  insertMerge (dedupKey c) (candidateRecord c) st

/-- Modelled from the spec: the keyed state after consuming a candidate
stream in order. -/
def dedupState (cs : List Candidate) : List (DedupKey × CompanyRecord) :=
  cs.foldl dedupStep []

/-- Modelled from the spec: `merge(candidates) → set<CompanyRecord>`
(§4.6) — the records of the final keyed state. -/
def dedup (cs : List Candidate) : List CompanyRecord :=
  (dedupState cs).map Prod.snd

/-- Look a key up in the keyed state. -/
def lookupRec : List (DedupKey × CompanyRecord) → DedupKey → Option CompanyRecord
  | [], _ => none
  | (k', r) :: rest, k => if k = k' then some r else lookupRec rest k

/-- The `product_overlap` set the state holds at a key, if any. -/
def overlapAt (st : List (DedupKey × CompanyRecord)) (k : DedupKey) :
    Option (Finset String) :=
  (lookupRec st k).map CompanyRecord.product_overlap

/-! ### EmailVerifier, modelled from the spec (§4.5) -/

/-- Modelled from the spec: the three checks `verify` runs — syntactic
validity, MX-record presence, SMTP-level recipient acceptance. -/
structure EmailChecks where
  wellFormed : Bool
  mxPresent : Bool
  smtpAccepts : Bool
deriving DecidableEq

/-- Modelled from the spec: the fixed ceiling for guessed-only
addresses.  §4.5 only bounds it (for example `0.3`); the §8 scenario
(`sales@retailerx.com` guessed with all checks passing scores `≤ 0.2`)
pins it to `0.2`. -/
def guessedCap : ℚ := 1/5

/-- Modelled from the spec: the confidence score of `verify(email,
discovered_on_page)` (§4.5) — a monotone combination of syntax
validity, MX presence, SMTP acceptance and page presence; guessed-only
addresses capped at `guessedCap` regardless of DNS/SMTP outcome; a
domain without MX kept below the guessed ceiling (§8); the final value
clamped to `[0,1]`. -/
def verifyScore (checks : EmailChecks) (discoveredOnPage : Bool) : ℚ :=
  if !checks.wellFormed then 0
  else
    let raw : ℚ := 1/5 + (if checks.mxPresent then 3/10 else 0)
      + (if checks.smtpAccepts then 3/10 else 0)
      + (if discoveredOnPage then 1/5 else 0)
    let capped := if discoveredOnPage then raw else min raw guessedCap
    let capped2 := if checks.mxPresent then capped else min capped (1/10)
    max 0 (min 1 capped2)

/-- Modelled from the spec: `verify(email, discovered_on_page) →
(valid, confidence)` (§4.5). -/
def verify (checks : EmailChecks) (discoveredOnPage : Bool) : Bool × ℚ :=
  (checks.wellFormed && checks.mxPresent, verifyScore checks discoveredOnPage)

/-- Modelled from the spec: a `ContactRecord` (§3).  Its
`confidence_score` always comes from the verifier. -/
structure ContactRecord where
  company_ref : String
  email : String
  confidence_score : ℚ
  name : Option String
  title : Option String
  last_validated : Option String

/-- Modelled from the spec: the pipeline builds a contact for a
verified email with the verifier's confidence (§2, §4.5). -/
def mkContact (companyRef email : String) (checks : EmailChecks)
    (discoveredOnPage : Bool) : ContactRecord :=
  { company_ref := companyRef
    email := email
    confidence_score := verifyScore checks discoveredOnPage
    name := none
    title := none
    last_validated := none }

/-! ### DomainResolver, modelled from the spec (§4.3) -/

/-- Modelled from the spec: one hit of `SearchGateway.search` (§4.1),
with the domain extracted from its URL. -/
structure SearchHit where
  hitDomain : String
  title : String
  snippet : String

/-- Modelled from the spec: the external world the resolver consults —
the search hits for `"{name} {locality}"`, plus DNS-resolution and
HTTP-reachability oracles. -/
structure ResolveEnv where
  searchHits : List SearchHit
  dnsOk : String → Bool
  httpOk : String → Bool

/-- Modelled from the spec: the fixed directory blacklist of
review/social/marketplace aggregator domains (§4.3). -/
def directoryBlacklist : List String :=
  ["facebook.com", "instagram.com", "linkedin.com", "yelp.com",
   "tripadvisor.com", "amazon.com", "ebay.com", "etsy.com"]

/-- Modelled from the spec: the textual-match test of the primary path
(§4.3).  The exact similarity threshold is an open implementation
choice (§9); the model uses case-insensitive substring containment of
the company name in title or snippet. -/
def nameMatches (name : String) (h : SearchHit) : Bool :=
  strContainsSub (lowerStr h.title ++ " " ++ lowerStr h.snippet) (lowerStr name)

/-- Modelled from the spec: the primary path — filter out blacklisted
directory domains, keep hits textually matching the name, return the
highest-ranked remaining hit's domain (§4.3). -/
def primaryResolve (name : String) (env : ResolveEnv) : Option String :=
  (((env.searchHits.filter (fun h => h.hitDomain ∉ directoryBlacklist)).filter
    (fun h => nameMatches name h)).head?).map SearchHit.hitDomain

/-- Modelled from the spec: strip non-alphanumerics from the name
(§4.3, fallback candidate generation). -/
def stripNonAlnum (s : String) : String :=
  String.mk ((lowerStr s).data.filter Char.isAlphanum)

/-- Modelled from the spec: the fixed TLD list of the fallback path. -/
def tldList : List String := [".com", ".net", ".org", ".co", ".io", ".shop", ".store"]

/-- Modelled from the spec: generated domain candidates, in generation
order (§4.3). -/
def genCandidates (name : String) : List String :=
  tldList.map (fun t => stripNonAlnum name ++ t)

/-- Modelled from the spec: the fallback path — first generated
candidate that passes both the DNS check and the HTTP(S) probe. -/
def fallbackResolve (name : String) (env : ResolveEnv) : Option String :=
  (genCandidates name).find? (fun d => env.dnsOk d && env.httpOk d)

/-- Modelled from the spec: `resolve(name, locality?) → domain?`
(§4.3) — primary path first, the generated-candidate fallback when it
yields nothing, `none` when both fail (a valid unresolved field, not an
error — the function is total). -/
def resolve (name : String) (locality : Option String) (env : ResolveEnv) :
    Option String :=
  match primaryResolve name env with
  | some d => some d
  | none => fallbackResolve name env

/-! ### PipelineOrchestrator run state machine, modelled from the spec (§4.7) -/

/-- Modelled from the spec: the run states
`Pending → Running → (Paused ↔ Running) → {Completed, Cancelled, Failed}`. -/
inductive RunState where
  | Pending
  | Running
  | Paused
  | Completed
  | Cancelled
  | Failed
deriving DecidableEq

/-- `Completed`, `Cancelled` and `Failed` are terminal. -/
def RunState.isTerminal : RunState → Bool
  | RunState.Completed => true
  | RunState.Cancelled => true
  | RunState.Failed => true
  | _ => false

/-- Modelled from the spec: a `Run` (§3) — its state, the candidates
already aggregated, and the per-strategy discovery counts. -/
structure Run where
  run_id : String
  brands : List String
  state : RunState
  aggregated : List Candidate
  per_strategy_counts : List (String × Nat)

/-- Modelled from the spec: the events a run reacts to — a candidate
arriving on the aggregation channel, the pause/resume/cancel controls,
normal completion, and an orchestrator-level fault. -/
inductive RunEvent where
  | candidate (c : Candidate)
  | pause
  | resume
  | cancel
  | complete
  | fault

/-- The count a strategy holds in the per-strategy table (0 when the
strategy has no entry yet). -/
def getCount (counts : List (String × Nat)) (s : String) : Nat :=
  ((counts.find? (fun p => p.1 = s)).map Prod.snd).getD 0

/-- Increment a strategy's entry in the per-strategy table. -/
def bumpCount : List (String × Nat) → String → List (String × Nat)
  | [], s => [(s, 1)]
  | (s', n) :: rest, s =>
    if s = s' then (s', n + 1) :: rest else (s', n) :: bumpCount rest s

/-- Modelled from the spec: the run transition function (§4.7).
Terminal states absorb every event; candidates are aggregated while
`Running`; `pause`/`resume` toggle the cooperative flag; `cancel`
finalizes the run with whatever was aggregated, as `Cancelled`, never
`Failed`; only an orchestrator-level `fault` produces `Failed` (§7). -/
def runStep (r : Run) (e : RunEvent) : Run :=
  if r.state.isTerminal then r
  else
    match e with
    | RunEvent.candidate c =>
      if r.state = RunState.Running then
        { r with aggregated := r.aggregated ++ [c]
                 per_strategy_counts := bumpCount r.per_strategy_counts c.source_strategy }
      else r
    | RunEvent.pause =>
      if r.state = RunState.Running then { r with state := RunState.Paused } else r
    | RunEvent.resume =>
      if r.state = RunState.Paused then { r with state := RunState.Running } else r
    | RunEvent.cancel => { r with state := RunState.Cancelled }
    | RunEvent.complete =>
      if r.state = RunState.Running then { r with state := RunState.Completed } else r
    | RunEvent.fault => { r with state := RunState.Failed }

/-- Modelled from the spec: `start(brands)` transitions the fresh run
to `Running` with nothing aggregated (§4.7). -/
def startRun (id : String) (brands : List String) : Run :=
  { run_id := id
    brands := brands
    state := RunState.Running
    aggregated := []
    per_strategy_counts := [] }

/-- The run after a sequence of events has been processed in order. -/
def runAfter (id : String) (brands : List String) (events : List RunEvent) : Run :=
  events.foldl runStep (startRun id brands)

/-- Per-strategy counts are accurate: every strategy's entry equals the
number of aggregated candidates it discovered. -/
def countsAccurate (r : Run) : Prop :=
  ∀ s, getCount r.per_strategy_counts s =
    (r.aggregated.filter (fun c => c.source_strategy = s)).length

/-! ### Remaining auxiliary definitions -/

/-- The literal (`$`-free replacement) variant of `replaceGo`: the same
scan, but the replacement text is inserted verbatim. -/
def litReplace (pat repl : List Char) : List Char → List Char
  | [] => []
  | c :: t =>
    if h : pat.isPrefixOf (c :: t) ∧ pat ≠ [] then
      repl ++ litReplace pat repl ((c :: t).drop pat.length)
    else
      c :: litReplace pat repl t
termination_by s => s.length
decreasing_by
  · have hp : 0 < pat.length := List.length_pos.mpr h.2
    simp only [List.length_drop, List.length_cons]
    omega
  · simp only [List.length_cons]
    omega

/-- No occurrence of `pat` starts strictly inside `u` when `u` is
followed by `rest`. -/
def noMatchIn (pat u rest : List Char) : Prop :=
  ∀ u₁ u₂, u = u₁ ++ u₂ → u₂ ≠ [] → pat.isPrefixOf (u₂ ++ rest) = false

/-- The character-list text of the pattern `{{k}}`. -/
def patKey (k : String) : List Char :=
  lbrace :: lbrace :: (k.data ++ [rbrace, rbrace])

/-- Substitute one key into one segment: the matching placeholder
becomes literal text, everything else is untouched. -/
def replaceHoleSeg (k v : String) : Seg → Seg
  | Seg.lit s => Seg.lit s
  | Seg.hole k' => if k' = k then Seg.lit v else Seg.hole k'

/-- The record stored at a key is consistent with that key: a
domain-keyed record carries exactly that domain, a name-keyed record
carries no domain. -/
def recMatchesKey : DedupKey → CompanyRecord → Prop
  | DedupKey.byDomain d, r => r.domain = some d
  | DedupKey.byName _ _, r => r.domain = none

/-- Deduplicator state invariant: keys are pairwise distinct and every
record is consistent with its key. -/
def goodState (st : List (DedupKey × CompanyRecord)) : Prop :=
  st.Pairwise (fun p q => p.1 ≠ q.1) ∧ ∀ p ∈ st, recMatchesKey p.1 p.2

/-- Two Deduplicator states are observationally equal when they hold
the same `product_overlap` set at every key. -/
def overlapEquiv (st st' : List (DedupKey × CompanyRecord)) : Prop :=
  ∀ k, overlapAt st k = overlapAt st' k

/-! ## Theorems -/

theorem outcomeOfType_eq_specOutcome (t : String) : outcomeOfType t = specOutcome t := by
  unfold outcomeOfType specOutcome
  dsimp only
  split_ifs <;> rfl

/-- C10: `n8nApi.suggestReplies` returns one suggestion per raw choice,
preserving `subject` and `body`, with the outcome determined
case-insensitively from `choice.type` by the precedence: containing
`figgyz` ⇒ `figgyz`; otherwise containing `decline` or `not interested`
⇒ `not_interested`; every other type — including unrecognized ones —
⇒ `f4f` (the redundant `first 4 figures`/`f4f` branch changes
nothing). -/
theorem suggestReplies_spec (choices : List Choice) :
    suggestReplies choices =
      choices.map (fun c =>
        { subject := c.subject, body := c.body, outcome := specOutcome c.type }) := by
  unfold suggestReplies
  exact List.map_congr_left fun c _ => by rw [outcomeOfType_eq_specOutcome]

/-- C8: `handleStartCompetitors` derives the brand list by splitting the
input on commas, trimming each piece and discarding empty pieces; the
`brands` query parameter is the comma-join of that list, and no request
is issued (`none`) exactly when no non-empty piece remains. -/
theorem competitorBrandsParam_spec (s : String) :
    (competitorBrandsParam s = none ↔ parseBrands s = []) ∧
    (∀ p, competitorBrandsParam s = some p →
      p = String.intercalate "," (parseBrands s) ∧
      parseBrands s ≠ [] ∧ ∀ b ∈ parseBrands s, b ≠ "") := by
  unfold competitorBrandsParam
  dsimp only
  constructor
  · constructor
    · intro h
      by_cases he : (parseBrands s).isEmpty = true
      · exact List.isEmpty_iff.mp he
      · rw [if_neg he] at h
        exact Option.noConfusion h
    · intro h
      simp [h]
  · intro p hp
    by_cases he : (parseBrands s).isEmpty = true
    · rw [if_pos he] at hp
      exact Option.noConfusion hp
    · rw [if_neg he] at hp
      have hx := Option.some.inj hp
      refine ⟨hx.symm, fun h0 => he (by simp [h0]), ?_⟩
      intro b hb
      unfold parseBrands at hb
      simp only [List.mem_filter, decide_eq_true_eq] at hb
      exact hb.2

theorem competitorBrandsParam_spec_witness :
    "Funko,Tubbz" = String.intercalate "," (parseBrands " Funko, , Tubbz ,") ∧
    parseBrands " Funko, , Tubbz ," ≠ [] ∧
    ∀ b ∈ parseBrands " Funko, , Tubbz ,", b ≠ "" :=
  (competitorBrandsParam_spec " Funko, , Tubbz ,").2 "Funko,Tubbz" (by decide)

/-- C3: the verifier's confidence is clamped to `[0,1]`, and therefore
every `ContactRecord` the pipeline builds carries a
`confidence_score` in `[0,1]`. -/
theorem verify_confidence_in_unit_interval (checks : EmailChecks) (page : Bool)
    (companyRef email : String) :
    0 ≤ (verify checks page).2 ∧ (verify checks page).2 ≤ 1 ∧
    0 ≤ (mkContact companyRef email checks page).confidence_score ∧
    (mkContact companyRef email checks page).confidence_score ≤ 1 := by
  have hx : ∀ x : ℚ, 0 ≤ max 0 (min 1 x) ∧ max 0 (min 1 x) ≤ 1 := fun x =>
    ⟨le_max_left _ _, max_le (by norm_num) (min_le_left _ _)⟩
  have h : 0 ≤ verifyScore checks page ∧ verifyScore checks page ≤ 1 := by
    unfold verifyScore
    by_cases hw : (!checks.wellFormed) = true
    · rw [if_pos hw]
      norm_num
    · rw [if_neg hw]
      dsimp only
      exact hx _
  exact ⟨h.1, h.2, h.1, h.2⟩

/-- C4: an email that was only generated as a fallback guess
(`discovered_on_page = false`) never scores above the guessed-email
cap, whatever the MX and SMTP checks return; the cap itself (`0.2`,
pinned by the §8 scenario) lies below the `0.3` bound the spec quotes,
and the all-checks-pass guessed email scores exactly the cap. -/
theorem guessed_confidence_capped (checks : EmailChecks) :
    (verify checks false).2 ≤ 3/10 ∧
    (verify checks false).2 ≤ guessedCap ∧
    (verify { wellFormed := true, mxPresent := true, smtpAccepts := true } false).2
      = guessedCap := by
  have hcap : ∀ c : EmailChecks, verifyScore c false ≤ guessedCap := by
    intro c
    unfold verifyScore
    by_cases hw : (!c.wellFormed) = true
    · rw [if_pos hw]
      norm_num [guessedCap]
    · rw [if_neg hw]
      dsimp only
      simp only [Bool.false_eq_true, if_false]
      refine max_le (by norm_num [guessedCap]) (le_trans (min_le_right 1 _) ?_)
      by_cases hm : c.mxPresent = true
      · rw [if_pos hm]
        exact min_le_right _ _
      · rw [if_neg hm]
        exact le_trans (min_le_left _ _) (min_le_right _ _)
  refine ⟨le_trans (hcap checks) (by norm_num [guessedCap]), hcap checks, ?_⟩
  show verifyScore { wellFormed := true, mxPresent := true, smtpAccepts := true } false
      = guessedCap
  norm_num [verifyScore, guessedCap]

theorem appendLogEvent_empty (d : String) : appendLogEvent "" d = d := by
  simp [appendLogEvent]

theorem appendLogEvent_ne (prev d : String) (h : prev ≠ "") :
    appendLogEvent prev d = prev ++ "\n" ++ d := by
  simp [appendLogEvent, h]

theorem append_str_ne_empty (a b : String) (h : a ≠ "") : a ++ b ≠ "" := by
  intro hab
  apply h
  have : (a ++ b).length = 0 := by rw [hab]; rfl
  rw [String.length_append] at this
  have ha : a.length = 0 := by omega
  exact String.ext (List.length_eq_zero.mp ha)

theorem joinLines_cons_cons (a b : String) (l : List String) :
    joinLines (a :: b :: l) = a ++ "\n" ++ joinLines (b :: l) := rfl

theorem foldl_appendLogEvent (acc : String) (l : List String) (h : acc ≠ "") :
    l.foldl appendLogEvent acc = joinLines (acc :: l) := by
  induction l generalizing acc with
  | nil => rfl
  | cons d ds ih =>
    rw [List.foldl_cons, appendLogEvent_ne acc d h, joinLines_cons_cons]
    rw [ih (acc ++ "\n" ++ d) (append_str_ne_empty _ _ (append_str_ne_empty _ _ h))]
    cases ds with
    | nil => rfl
    | cons e es => rw [joinLines_cons_cons, joinLines_cons_cons]; simp [String.append_assoc]

/-- C7 counterexample: with a leading empty `log` payload the displayed
log is not the newline-join of the payloads — the code inserts the
second payload bare (`"x"`), while the join carries a leading
newline (`"\nx"`). -/
theorem displayedLog_empty_first_cex :
    displayedLog ["", "x"] = "x" ∧ joinLines ["", "x"] = "\n" ++ "x" ∧
    displayedLog ["", "x"] ≠ joinLines ["", "x"] := by
  refine ⟨rfl, rfl, ?_⟩
  decide

/-- C7 (amended): whenever the first received payload is non-empty, the
displayed run log equals the payloads of all received log events joined
in arrival order by single newline characters; a payload arriving while
the accumulated log is still empty is inserted without a separator. -/
theorem displayedLog_eq_joinLines (d : String) (l : List String) (hd : d ≠ "") :
    displayedLog (d :: l) = joinLines (d :: l) := by
  unfold displayedLog
  rw [List.foldl_cons, appendLogEvent_empty]
  exact foldl_appendLogEvent d l hd

theorem displayedLog_eq_joinLines_witness :
    displayedLog ["a", "", "b"] = joinLines ["a", "", "b"] :=
  displayedLog_eq_joinLines "a" ["", "b"] (by decide)

theorem lookupRec_insertMerge (st : List (DedupKey × CompanyRecord))
    (k k' : DedupKey) (r : CompanyRecord) :
    lookupRec (insertMerge k r st) k' =
      if k' = k then
        some ((lookupRec st k).elim r (fun r' => mergeRecords r' r))
      else lookupRec st k' := by
  induction st with
  | nil =>
    by_cases h : k' = k
    · simp [insertMerge, lookupRec, h]
    · simp [insertMerge, lookupRec, h]
  | cons p rest ih =>
    obtain ⟨k₀, r₀⟩ := p
    by_cases h0 : k = k₀
    · subst h0
      by_cases h1 : k' = k
      · subst h1
        simp [insertMerge, lookupRec]
      · simp [insertMerge, lookupRec, h1]
    · by_cases h1 : k' = k₀
      · subst h1
        have hne : ¬k' = k := fun hh => h0 hh.symm
        simp [insertMerge, lookupRec, h0, hne, ih]
      · simp [insertMerge, lookupRec, h0, h1, ih]

theorem mergeRecords_overlap (x y : CompanyRecord) :
    (mergeRecords x y).product_overlap = x.product_overlap ∪ y.product_overlap := rfl

theorem mergeRecords_domain (x y : CompanyRecord) :
    (mergeRecords x y).domain = x.domain := rfl

theorem overlapAt_dedupStep (st : List (DedupKey × CompanyRecord)) (c : Candidate)
    (k : DedupKey) :
    overlapAt (dedupStep st c) k =
      if k = dedupKey c then
        some (((overlapAt st k).getD ∅) ∪ c.brand_tags)
      else overlapAt st k := by
  unfold dedupStep overlapAt
  rw [lookupRec_insertMerge]
  by_cases h : k = dedupKey c
  · rw [if_pos h, if_pos h, h]
    cases hl : lookupRec st (dedupKey c) with
    | none => simp [candidateRecord]
    | some r' => simp [mergeRecords_overlap, candidateRecord]
  · rw [if_neg h, if_neg h]

theorem overlapEquiv_dedupStep {st st' : List (DedupKey × CompanyRecord)}
    (h : overlapEquiv st st') (c : Candidate) :
    overlapEquiv (dedupStep st c) (dedupStep st' c) := by
  intro k
  rw [overlapAt_dedupStep, overlapAt_dedupStep, h k]

theorem overlapEquiv_dedupStep_swap (st : List (DedupKey × CompanyRecord))
    (a b : Candidate) :
    overlapEquiv (dedupStep (dedupStep st a) b) (dedupStep (dedupStep st b) a) := by
  intro k
  rw [overlapAt_dedupStep, overlapAt_dedupStep, overlapAt_dedupStep, overlapAt_dedupStep]
  by_cases hb : k = dedupKey b <;> by_cases ha : k = dedupKey a
  · rw [if_pos hb, if_pos ha, if_pos ha, if_pos hb]
    simp [Finset.union_assoc, Finset.union_comm b.brand_tags a.brand_tags]
  · rw [if_pos hb, if_neg ha, if_neg ha, if_pos hb]
  · rw [if_neg hb, if_pos ha, if_pos ha, if_neg hb]
  · rw [if_neg hb, if_neg ha, if_neg ha, if_neg hb]

theorem overlapEquiv_foldl {st st' : List (DedupKey × CompanyRecord)}
    (h : overlapEquiv st st') (l : List Candidate) :
    overlapEquiv (l.foldl dedupStep st) (l.foldl dedupStep st') := by
  induction l generalizing st st' with
  | nil => exact h
  | cons c t ih => exact ih (overlapEquiv_dedupStep h c)

theorem overlapEquiv_refl (st : List (DedupKey × CompanyRecord)) :
    overlapEquiv st st := fun _ => rfl

theorem overlapEquiv_trans {s₁ s₂ s₃ : List (DedupKey × CompanyRecord)}
    (h₁ : overlapEquiv s₁ s₂) (h₂ : overlapEquiv s₂ s₃) : overlapEquiv s₁ s₃ :=
  fun k => (h₁ k).trans (h₂ k)

theorem overlapEquiv_foldl_perm {l₁ l₂ : List Candidate} (hp : l₁.Perm l₂) :
    ∀ st, overlapEquiv (l₁.foldl dedupStep st) (l₂.foldl dedupStep st) := by
  induction hp with
  | nil => exact fun st => overlapEquiv_refl _
  | cons x _ ih => exact fun st => ih (dedupStep st x)
  | swap x y l =>
    intro st
    exact overlapEquiv_foldl (overlapEquiv_dedupStep_swap st y x) l
  | trans _ _ ih₁ ih₂ => exact fun st => overlapEquiv_trans (ih₁ st) (ih₂ st)

/-- C1: two candidates sharing a resolved domain merge — in either
processing order — into exactly one `CompanyRecord` for that domain
whose `product_overlap` is the union of both candidates' brand tags;
`product_overlap` accumulation under `mergeRecords` is commutative and
associative, and the overlap sets any Deduplicator state holds are
invariant under every permutation of the candidate stream. -/
theorem dedup_pair_merge (a b : Candidate) (d : String) (l : List Candidate)
    (ha : a.domain = some d) (hb : b.domain = some d)
    (hl : l = [a, b] ∨ l = [b, a]) :
    (∃ r, dedup l = [r] ∧ r.domain = some d ∧
      r.product_overlap = a.brand_tags ∪ b.brand_tags) ∧
    (∀ x y : CompanyRecord,
      (mergeRecords x y).product_overlap = (mergeRecords y x).product_overlap) ∧
    (∀ x y z : CompanyRecord,
      (mergeRecords (mergeRecords x y) z).product_overlap =
        (mergeRecords x (mergeRecords y z)).product_overlap) ∧
    (∀ l₁ l₂ : List Candidate, l₁.Perm l₂ →
      overlapEquiv (dedupState l₁) (dedupState l₂)) := by
  refine ⟨?_, ?_, ?_, ?_⟩
  · rcases hl with h | h <;> subst h
    · refine ⟨mergeRecords (candidateRecord a) (candidateRecord b), ?_, ha, ?_⟩
      · simp [dedup, dedupState, dedupStep, dedupKey, ha, hb, insertMerge]
      · simp [mergeRecords_overlap, candidateRecord]
    · refine ⟨mergeRecords (candidateRecord b) (candidateRecord a), ?_, hb, ?_⟩
      · simp [dedup, dedupState, dedupStep, dedupKey, ha, hb, insertMerge]
      · simp [mergeRecords_overlap, candidateRecord, Finset.union_comm]
  · intro x y
    simp [mergeRecords_overlap, Finset.union_comm]
  · intro x y z
    simp [mergeRecords_overlap, Finset.union_assoc]
  · intro l₁ l₂ hp
    exact overlapEquiv_foldl_perm hp []

theorem dedup_pair_merge_witness :
    (∃ r,
      dedup [{ source_strategy := "brand_site", raw_name := "RetailerX",
               url := "https://retailerx.com", domain := some "retailerx.com",
               brand_tags := {"Funko"}, country_hint := none },
             { source_strategy := "marketplace_ebay", raw_name := "Retailer X",
               url := "https://ebay.com/usr/retailerx", domain := some "retailerx.com",
               brand_tags := {"Tubbz"}, country_hint := some "US" }] = [r] ∧
        r.domain = some "retailerx.com" ∧
        r.product_overlap = ({"Funko"} : Finset String) ∪ {"Tubbz"}) ∧
    (∀ x y : CompanyRecord,
      (mergeRecords x y).product_overlap = (mergeRecords y x).product_overlap) ∧
    (∀ x y z : CompanyRecord,
      (mergeRecords (mergeRecords x y) z).product_overlap =
        (mergeRecords x (mergeRecords y z)).product_overlap) ∧
    (∀ l₁ l₂ : List Candidate, l₁.Perm l₂ →
      overlapEquiv (dedupState l₁) (dedupState l₂)) :=
  dedup_pair_merge
    { source_strategy := "brand_site", raw_name := "RetailerX",
      url := "https://retailerx.com", domain := some "retailerx.com",
      brand_tags := {"Funko"}, country_hint := none }
    { source_strategy := "marketplace_ebay", raw_name := "Retailer X",
      url := "https://ebay.com/usr/retailerx", domain := some "retailerx.com",
      brand_tags := {"Tubbz"}, country_hint := some "US" }
    "retailerx.com" _ rfl rfl (Or.inl rfl)

theorem recMatchesKey_merge (k : DedupKey) (r r' : CompanyRecord)
    (h : recMatchesKey k r) : recMatchesKey k (mergeRecords r r') := by
  cases k with
  | byDomain d =>
    show (mergeRecords r r').domain = some d
    rw [mergeRecords_domain]
    exact h
  | byName n loc =>
    show (mergeRecords r r').domain = none
    rw [mergeRecords_domain]
    exact h

theorem insertMerge_fst_mem (k : DedupKey) (r : CompanyRecord) :
    ∀ st, ∀ q ∈ insertMerge k r st, q.1 = k ∨ q.1 ∈ st.map Prod.fst := by
  intro st
  induction st with
  | nil =>
    intro q hq
    simp [insertMerge] at hq
    simp [hq]
  | cons p rest ih =>
    obtain ⟨k₀, r₀⟩ := p
    intro q hq
    by_cases h0 : k = k₀
    · simp only [insertMerge, if_pos h0] at hq
      rcases List.mem_cons.mp hq with h | h
      · right
        simp [h]
      · right
        simp only [List.map_cons, List.mem_cons]
        exact Or.inr (List.mem_map_of_mem Prod.fst h)
    · simp only [insertMerge, if_neg h0] at hq
      rcases List.mem_cons.mp hq with h | h
      · right
        simp [h]
      · rcases ih q h with h' | h'
        · exact Or.inl h'
        · right
          simp only [List.map_cons, List.mem_cons]
          exact Or.inr h'

theorem goodState_insertMerge (k : DedupKey) (r : CompanyRecord)
    (hr : recMatchesKey k r) :
    ∀ st, goodState st → goodState (insertMerge k r st) := by
  intro st
  induction st with
  | nil =>
    intro _
    exact ⟨List.pairwise_singleton _ _, by
      intro p hp
      simp [insertMerge] at hp
      simp [hp, hr]⟩
  | cons p rest ih =>
    obtain ⟨k₀, r₀⟩ := p
    intro hg
    obtain ⟨hpw, hm⟩ := hg
    have hpw₀ := List.pairwise_cons.mp hpw
    by_cases h0 : k = k₀
    · subst h0
      rw [insertMerge, if_pos rfl]
      refine ⟨List.pairwise_cons.mpr ⟨hpw₀.1, hpw₀.2⟩, ?_⟩
      intro p hp
      rcases List.mem_cons.mp hp with h | h
      · subst h
        exact recMatchesKey_merge _ _ _ (hm (k, r₀) (List.mem_cons_self _ _))
      · exact hm p (List.mem_cons_of_mem _ h)
    · rw [insertMerge, if_neg h0]
      have hrest : goodState (insertMerge k r rest) :=
        ih ⟨hpw₀.2, fun p hp => hm p (List.mem_cons_of_mem _ hp)⟩
      refine ⟨List.pairwise_cons.mpr ⟨?_, hrest.1⟩, ?_⟩
      · intro q hq
        rcases insertMerge_fst_mem k r rest q hq with h | h
        · rw [h]
          exact fun hk => h0 hk.symm
        · rcases List.mem_map.mp h with ⟨q', hq', hq'eq⟩
          rw [← hq'eq]
          exact hpw₀.1 q' hq'
      · intro p hp
        rcases List.mem_cons.mp hp with h | h
        · subst h
          exact hm (k₀, r₀) (List.mem_cons_self _ _)
        · exact hrest.2 p h

theorem goodState_foldl (cs : List Candidate) :
    ∀ st, goodState st → goodState (cs.foldl dedupStep st) := by
  induction cs with
  | nil => exact fun st h => h
  | cons c t ih =>
    intro st h
    refine ih _ (goodState_insertMerge (dedupKey c) (candidateRecord c) ?_ st h)
    unfold dedupKey recMatchesKey candidateRecord
    cases hc : c.domain with
    | none => simp [hc]
    | some d => simp [hc]

theorem goodState_dedupState (cs : List Candidate) : goodState (dedupState cs) :=
  goodState_foldl cs [] ⟨List.Pairwise.nil, by simp⟩

/-- C2: in the Deduplicator's output, every domain value that is
present appears in exactly one `CompanyRecord` — two distinct output
records never share a present domain. -/
theorem dedup_domain_unique (cs : List Candidate) :
    (dedup cs).Pairwise (fun r₁ r₂ => ∀ d, r₁.domain = some d → r₂.domain ≠ some d) := by
  obtain ⟨hpw, hm⟩ := goodState_dedupState cs
  unfold dedup
  rw [List.pairwise_map]
  have key : ∀ p ∈ dedupState cs, ∀ d, p.2.domain = some d →
      p.1 = DedupKey.byDomain d := by
    intro p hp d hpd
    have hp' := hm p hp
    cases hk : p.1 with
    | byDomain dp =>
      rw [hk] at hp'
      have hdp : p.2.domain = some dp := hp'
      rw [hpd] at hdp
      rw [Option.some.inj hdp]
    | byName n loc =>
      rw [hk] at hp'
      have hdn : p.2.domain = none := hp'
      rw [hpd] at hdn
      exact absurd hdn (by simp)
  have main : ∀ p ∈ dedupState cs, ∀ q ∈ dedupState cs, p.1 ≠ q.1 →
      ∀ d, p.2.domain = some d → q.2.domain ≠ some d := by
    intro p hp q hq hne d hpd hqd
    exact hne ((key p hp d hpd).trans (key q hq d hqd).symm)
  exact List.Pairwise.imp_of_mem (fun {p q} hp hq hne => main p hp q hq hne) hpw

theorem getCount_nil (s : String) : getCount [] s = 0 := rfl

theorem getCount_cons (s' : String) (n : Nat) (rest : List (String × Nat))
    (s : String) :
    getCount ((s', n) :: rest) s = if s = s' then n else getCount rest s := by
  unfold getCount
  by_cases h : s = s'
  · subst h
    rw [List.find?_cons_of_pos _ (by simp)]
    simp
  · have h' : ¬s' = s := fun hh => h hh.symm
    rw [List.find?_cons_of_neg _ (by simpa using h'), if_neg h]

theorem getCount_bumpCount (counts : List (String × Nat)) (s₀ s : String) :
    getCount (bumpCount counts s₀) s =
      (if s = s₀ then 1 else 0) + getCount counts s := by
  induction counts with
  | nil =>
    simp only [bumpCount]
    rw [getCount_cons, getCount_nil]
    by_cases h : s = s₀ <;> simp [h]
  | cons p rest ih =>
    obtain ⟨s', n⟩ := p
    simp only [bumpCount]
    by_cases h0 : s₀ = s'
    · subst h0
      rw [if_pos rfl, getCount_cons, getCount_cons]
      by_cases h : s = s₀ <;> simp [h, Nat.add_comm]
    · rw [if_neg h0, getCount_cons, getCount_cons, ih]
      by_cases h1 : s = s'
      · have hns : ¬s = s₀ := fun hh => h0 (hh ▸ h1)
        have h0' : ¬s' = s₀ := fun hh => h0 hh.symm
        simp [h1, hns, h0']
      · simp [h1]

theorem countsAccurate_runStep (r : Run) (h : countsAccurate r) (e : RunEvent) :
    countsAccurate (runStep r e) := by
  unfold runStep
  by_cases ht : r.state.isTerminal = true
  · rw [if_pos ht]
    exact h
  · rw [if_neg ht]
    cases e with
    | candidate c =>
      dsimp only
      by_cases hr : r.state = RunState.Running
      · rw [if_pos hr]
        intro s
        simp only [getCount_bumpCount, List.filter_append, List.length_append]
        rw [h s]
        by_cases hs : s = c.source_strategy
        · subst hs
          simp [List.filter_cons, Nat.add_comm]
        · have hs' : ¬c.source_strategy = s := fun hh => hs hh.symm
          simp [List.filter_cons, hs', hs]
      · rw [if_neg hr]
        exact h
    | pause =>
      dsimp only
      by_cases hr : r.state = RunState.Running
      · rw [if_pos hr]
        exact h
      · rw [if_neg hr]
        exact h
    | resume =>
      dsimp only
      by_cases hr : r.state = RunState.Paused
      · rw [if_pos hr]
        exact h
      · rw [if_neg hr]
        exact h
    | cancel => exact h
    | complete =>
      dsimp only
      by_cases hr : r.state = RunState.Running
      · rw [if_pos hr]
        exact h
      · rw [if_neg hr]
        exact h
    | fault => exact h

theorem countsAccurate_startRun (id : String) (brands : List String) :
    countsAccurate (startRun id brands) := by
  intro s
  simp [startRun, getCount]

theorem countsAccurate_runAfter (id : String) (brands : List String)
    (events : List RunEvent) : countsAccurate (runAfter id brands events) := by
  unfold runAfter
  induction events using List.reverseRecOn with
  | nil => exact countsAccurate_startRun id brands
  | append_singleton es e ih =>
    rw [List.foldl_append, List.foldl_cons, List.foldl_nil]
    exact countsAccurate_runStep _ ih e

theorem runStep_terminal (r : Run) (ht : r.state.isTerminal = true) (e : RunEvent) :
    runStep r e = r := by
  unfold runStep
  rw [if_pos ht]

/-- C5: cancelling a non-terminal run finalizes it as `Cancelled` —
never `Failed` — in a terminal state that absorbs every further event,
keeping exactly the candidates already aggregated as the partial
result, with per-strategy counts that match that partial result. -/
theorem cancel_run_spec (id : String) (brands : List String)
    (events : List RunEvent)
    (h : (runAfter id brands events).state.isTerminal = false) :
    (runStep (runAfter id brands events) RunEvent.cancel).state = RunState.Cancelled ∧
    (runStep (runAfter id brands events) RunEvent.cancel).state ≠ RunState.Failed ∧
    (∀ e, runStep (runStep (runAfter id brands events) RunEvent.cancel) e =
      runStep (runAfter id brands events) RunEvent.cancel) ∧
    (runStep (runAfter id brands events) RunEvent.cancel).aggregated =
      (runAfter id brands events).aggregated ∧
    countsAccurate (runStep (runAfter id brands events) RunEvent.cancel) := by
  have hstep : runStep (runAfter id brands events) RunEvent.cancel =
      { runAfter id brands events with state := RunState.Cancelled } := by
    unfold runStep
    rw [if_neg (by rw [h]; exact Bool.false_ne_true)]
  refine ⟨by rw [hstep], by rw [hstep]; exact fun hh => RunState.noConfusion hh, ?_, ?_, ?_⟩
  · intro e
    apply runStep_terminal
    rw [hstep]
    rfl
  · rw [hstep]
  · exact countsAccurate_runStep _ (countsAccurate_runAfter id brands events) _

theorem cancel_run_spec_witness :
    (runStep (runAfter "run-1" ["Funko"]
        [RunEvent.candidate
          { source_strategy := "brand_site", raw_name := "RetailerX",
            url := "https://retailerx.com", domain := some "retailerx.com",
            brand_tags := {"Funko"}, country_hint := none },
         RunEvent.pause, RunEvent.resume]) RunEvent.cancel).state
      = RunState.Cancelled ∧
    (runStep (runAfter "run-1" ["Funko"]
        [RunEvent.candidate
          { source_strategy := "brand_site", raw_name := "RetailerX",
            url := "https://retailerx.com", domain := some "retailerx.com",
            brand_tags := {"Funko"}, country_hint := none },
         RunEvent.pause, RunEvent.resume]) RunEvent.cancel).state ≠ RunState.Failed ∧
    (∀ e, runStep (runStep (runAfter "run-1" ["Funko"]
        [RunEvent.candidate
          { source_strategy := "brand_site", raw_name := "RetailerX",
            url := "https://retailerx.com", domain := some "retailerx.com",
            brand_tags := {"Funko"}, country_hint := none },
         RunEvent.pause, RunEvent.resume]) RunEvent.cancel) e =
      runStep (runAfter "run-1" ["Funko"]
        [RunEvent.candidate
          { source_strategy := "brand_site", raw_name := "RetailerX",
            url := "https://retailerx.com", domain := some "retailerx.com",
            brand_tags := {"Funko"}, country_hint := none },
         RunEvent.pause, RunEvent.resume]) RunEvent.cancel) ∧
    (runStep (runAfter "run-1" ["Funko"]
        [RunEvent.candidate
          { source_strategy := "brand_site", raw_name := "RetailerX",
            url := "https://retailerx.com", domain := some "retailerx.com",
            brand_tags := {"Funko"}, country_hint := none },
         RunEvent.pause, RunEvent.resume]) RunEvent.cancel).aggregated =
      (runAfter "run-1" ["Funko"]
        [RunEvent.candidate
          { source_strategy := "brand_site", raw_name := "RetailerX",
            url := "https://retailerx.com", domain := some "retailerx.com",
            brand_tags := {"Funko"}, country_hint := none },
         RunEvent.pause, RunEvent.resume]).aggregated ∧
    countsAccurate (runStep (runAfter "run-1" ["Funko"]
        [RunEvent.candidate
          { source_strategy := "brand_site", raw_name := "RetailerX",
            url := "https://retailerx.com", domain := some "retailerx.com",
            brand_tags := {"Funko"}, country_hint := none },
         RunEvent.pause, RunEvent.resume]) RunEvent.cancel) :=
  cancel_run_spec "run-1" ["Funko"]
    [RunEvent.candidate
      { source_strategy := "brand_site", raw_name := "RetailerX",
        url := "https://retailerx.com", domain := some "retailerx.com",
        brand_tags := {"Funko"}, country_hint := none },
     RunEvent.pause, RunEvent.resume] (by decide)

/-- C6: when the primary search path produces no usable hit (every hit
is blacklisted or fails the name match) and no generated fallback
candidate passes both the DNS check and the HTTP probe, `resolve`
returns `none` — as a value, not an error — and a candidate whose
domain stays unresolved is still turned into a persisted
`CompanyRecord` with an absent domain. -/
theorem resolve_none_when_both_fail (name : String) (locality : Option String)
    (env : ResolveEnv)
    (hp : ∀ h ∈ env.searchHits, h.hitDomain ∈ directoryBlacklist ∨ nameMatches name h = false)
    (hf : ∀ d ∈ genCandidates name, env.dnsOk d = false ∨ env.httpOk d = false)
    (c : Candidate) (hc : c.domain = none) :
    resolve name locality env = none ∧
    ∃ r, dedup [c] = [r] ∧ r.domain = none := by
  constructor
  · have hprim : primaryResolve name env = none := by
      unfold primaryResolve
      have : (env.searchHits.filter
          (fun h => h.hitDomain ∉ directoryBlacklist)).filter
          (fun h => nameMatches name h) = [] := by
        rw [List.filter_eq_nil_iff]
        intro a ha
        rcases List.mem_filter.mp ha with ⟨hmem, hbl⟩
        rcases hp a hmem with hb | hm
        · exact absurd hb (by simpa using hbl)
        · simp [hm]
      rw [this]
      rfl
    have hfall : fallbackResolve name env = none := by
      unfold fallbackResolve
      rw [List.find?_eq_none]
      intro d hd
      rcases hf d hd with h1 | h1 <;> simp [h1]
    unfold resolve
    rw [hprim, hfall]
  · exact ⟨candidateRecord c, by simp [dedup, dedupState, dedupStep, insertMerge], hc⟩

theorem resolve_none_when_both_fail_witness :
    resolve "RetailerX" (some "Austin")
      { searchHits := [{ hitDomain := "facebook.com", title := "RetailerX - Facebook",
                         snippet := "retailerx on facebook" }],
        dnsOk := fun _ => false, httpOk := fun _ => true } = none ∧
    ∃ r,
      dedup [{ source_strategy := "marketplace_ebay", raw_name := "CollectiblesShop",
               url := "https://ebay.com/usr/collectiblesshop", domain := none,
               brand_tags := {"Funko"}, country_hint := none }] = [r] ∧
      r.domain = none :=
  resolve_none_when_both_fail "RetailerX" (some "Austin")
    { searchHits := [{ hitDomain := "facebook.com", title := "RetailerX - Facebook",
                       snippet := "retailerx on facebook" }],
      dnsOk := fun _ => false, httpOk := fun _ => true }
    (by intro h hh; left; simp at hh; rw [hh]; decide)
    (by intro d hd; left; rfl)
    { source_strategy := "marketplace_ebay", raw_name := "CollectiblesShop",
      url := "https://ebay.com/usr/collectiblesshop", domain := none,
      brand_tags := {"Funko"}, country_hint := none } rfl

theorem replaceGo_nil (pat repl seen : List Char) :
    replaceGo pat repl seen [] = [] := by
  simp [replaceGo]

theorem replaceGo_cons (pat repl seen : List Char) (c : Char) (t : List Char) :
    replaceGo pat repl seen (c :: t) =
      if pat.isPrefixOf (c :: t) ∧ pat ≠ [] then
        expandRepl seen pat ((c :: t).drop pat.length) repl ++
          replaceGo pat repl (seen ++ pat) ((c :: t).drop pat.length)
      else c :: replaceGo pat repl (seen ++ [c]) t := by
  rw [replaceGo]
  split <;> rfl

theorem litReplace_nil (pat repl : List Char) : litReplace pat repl [] = [] := by
  simp [litReplace]

theorem litReplace_cons (pat repl : List Char) (c : Char) (t : List Char) :
    litReplace pat repl (c :: t) =
      if pat.isPrefixOf (c :: t) ∧ pat ≠ [] then
        repl ++ litReplace pat repl ((c :: t).drop pat.length)
      else c :: litReplace pat repl t := by
  rw [litReplace]
  split <;> rfl

theorem expandRepl_no_dollar (before matched after repl : List Char)
    (h : '$' ∉ repl) : expandRepl before matched after repl = repl := by
  induction repl with
  | nil => rfl
  | cons c rest ih =>
    have hc : ¬c = '$' := fun hh => h (hh ▸ List.mem_cons_self c rest)
    rw [expandRepl.eq_def]
    simp only [if_neg hc]
    rw [ih (fun hm => h (List.mem_cons_of_mem c hm))]

theorem replaceGo_eq_litReplace (pat repl : List Char) (hrepl : '$' ∉ repl) :
    ∀ n (s : List Char), s.length ≤ n → ∀ seen,
      replaceGo pat repl seen s = litReplace pat repl s := by
  intro n
  induction n with
  | zero =>
    intro s hs seen
    rw [List.length_eq_zero.mp (Nat.le_zero.mp hs)]
    rw [replaceGo_nil, litReplace_nil]
  | succ n ih =>
    intro s hs seen
    cases s with
    | nil => rw [replaceGo_nil, litReplace_nil]
    | cons c t =>
      rw [replaceGo_cons, litReplace_cons]
      by_cases h : pat.isPrefixOf (c :: t) = true ∧ pat ≠ []
      · rw [if_pos h, if_pos h, expandRepl_no_dollar _ _ _ _ hrepl]
        congr 1
        have hlen : ((c :: t).drop pat.length).length ≤ n := by
          have hp : 0 < pat.length := List.length_pos.mpr h.2
          simp only [List.length_drop, List.length_cons]
          simp only [List.length_cons] at hs
          omega
        exact ih _ hlen _
      · rw [if_neg h, if_neg h]
        congr 1
        have hlen : t.length ≤ n := by
          simp only [List.length_cons] at hs
          omega
        exact ih t hlen _

theorem noMatchIn_tail (pat : List Char) (c : Char) (u rest : List Char)
    (h : noMatchIn pat (c :: u) rest) : noMatchIn pat u rest := by
  intro u₁ u₂ hu hne
  exact h (c :: u₁) u₂ (by rw [hu]; rfl) hne

theorem litReplace_append_noMatch (pat repl u rest : List Char)
    (h : noMatchIn pat u rest) :
    litReplace pat repl (u ++ rest) = u ++ litReplace pat repl rest := by
  induction u with
  | nil => rfl
  | cons c u' ih =>
    have hhead : pat.isPrefixOf ((c :: u') ++ rest) = false :=
      h [] (c :: u') rfl (by simp)
    rw [List.cons_append, litReplace_cons,
      if_neg (by rw [List.cons_append] at hhead; simp [hhead])]
    rw [List.cons_append]
    congr 1
    exact ih (noMatchIn_tail pat c u' rest h)

theorem isPrefixOf_append_self (pat rest : List Char) :
    pat.isPrefixOf (pat ++ rest) = true :=
  List.isPrefixOf_iff_prefix.mpr (List.prefix_append pat rest)

theorem litReplace_match_head (pat repl rest : List Char) (hpat : pat ≠ []) :
    litReplace pat repl (pat ++ rest) = repl ++ litReplace pat repl rest := by
  cases hp : pat with
  | nil => exact absurd hp hpat
  | cons p pt =>
    rw [← hp]
    have hne : pat ++ rest = p :: (pt ++ rest) := by rw [hp]; rfl
    rw [hne, litReplace_cons, ← hne, if_pos ⟨isPrefixOf_append_self pat rest, hpat⟩,
      List.drop_left]

theorem isPrefixOf_head_ne (p c : Char) (ps t : List Char) (h : ¬p = c) :
    (p :: ps).isPrefixOf (c :: t) = false := by
  simp [List.isPrefixOf, h]

theorem keyPatInj (k : List Char) :
    ∀ (k' y : List Char), rbrace ∉ k → rbrace ∉ k' →
      (k ++ [rbrace, rbrace]).isPrefixOf (k' ++ rbrace :: rbrace :: y) = true →
      k = k' := by
  induction k with
  | nil =>
    intro k' y _ hk' h
    cases k' with
    | nil => rfl
    | cons c' kt' =>
      exfalso
      simp only [List.nil_append, List.cons_append, List.isPrefixOf,
        Bool.and_eq_true, beq_iff_eq] at h
      exact hk' (h.1 ▸ List.mem_cons_self c' kt')
  | cons c kt ih =>
    intro k' y hk hk' h
    cases k' with
    | nil =>
      exfalso
      simp only [List.nil_append, List.cons_append, List.isPrefixOf,
        Bool.and_eq_true, beq_iff_eq] at h
      exact hk (h.1 ▸ List.mem_cons_self c kt)
    | cons c' kt' =>
      simp only [List.cons_append, List.isPrefixOf, Bool.and_eq_true, beq_iff_eq] at h
      obtain ⟨hc, hrest⟩ := h
      rw [hc, ih kt' y (fun hm => hk (List.mem_cons_of_mem _ hm))
        (fun hm => hk' (List.mem_cons_of_mem _ hm)) hrest]

theorem noMatchIn_braceFree (pat' u rest : List Char) (hu : lbrace ∉ u) :
    noMatchIn (lbrace :: pat') u rest := by
  intro u₁ u₂ hu₂ hne
  cases u₂ with
  | nil => exact absurd rfl hne
  | cons c t =>
    have hc : c ∈ u := by
      rw [hu₂]
      exact List.mem_append.mpr (Or.inr (List.mem_cons_self c t))
    have hlc : ¬lbrace = c := fun hh => hu (hh ▸ hc)
    rw [List.cons_append]
    exact isPrefixOf_head_ne _ _ _ _ hlc

theorem lbrace_ne_rbrace : ¬lbrace = rbrace := by decide

theorem noMatchIn_hole (k k' rest : List Char)
    (hk : rbrace ∉ k) (hk'r : rbrace ∉ k') (hk'l : lbrace ∉ k')
    (hne : k ≠ k') :
    noMatchIn (lbrace :: lbrace :: (k ++ [rbrace, rbrace]))
      (lbrace :: lbrace :: (k' ++ [rbrace, rbrace])) rest := by
  intro u₁ u₂ hu hne₂
  cases u₁ with
  | nil =>
    rw [List.nil_append] at hu
    subst hu
    by_contra hb
    have hb' : (lbrace :: lbrace :: (k ++ [rbrace, rbrace])).isPrefixOf
        ((lbrace :: lbrace :: (k' ++ [rbrace, rbrace])) ++ rest) = true := by
      cases hx : (lbrace :: lbrace :: (k ++ [rbrace, rbrace])).isPrefixOf
          ((lbrace :: lbrace :: (k' ++ [rbrace, rbrace])) ++ rest) with
      | false => exact absurd hx hb
      | true => rfl
    simp only [List.cons_append, List.isPrefixOf, Bool.and_eq_true, beq_iff_eq] at hb'
    obtain ⟨-, -, hb'⟩ := hb'
    simp only [List.append_eq] at hb'
    have hshape : (k' ++ [rbrace, rbrace]) ++ rest = k' ++ rbrace :: rbrace :: rest := by
      simp
    rw [hshape] at hb'
    exact hne (keyPatInj k k' rest hk hk'r hb')
  | cons x u₁' =>
    have hx : x = lbrace := (List.cons.inj hu).1.symm
    have hrest₁ : lbrace :: (k' ++ [rbrace, rbrace]) = u₁' ++ u₂ := (List.cons.inj hu).2
    cases u₁' with
    | nil =>
      rw [List.nil_append] at hrest₁
      subst hrest₁
      rw [List.cons_append]
      cases hk'' : k' with
      | nil =>
        simp only [hk'', List.nil_append, List.cons_append, List.isPrefixOf]
        simp [lbrace_ne_rbrace]
      | cons a k'' =>
        have ha : ¬lbrace = a := fun hh =>
          hk'l (hh ▸ (hk'' ▸ List.mem_cons_self a k''))
        simp only [hk'', List.cons_append, List.isPrefixOf]
        simp [ha]
    | cons x' u₁'' =>
      have hrest₂ : k' ++ [rbrace, rbrace] = u₁'' ++ u₂ := (List.cons.inj hrest₁).2
      cases u₂ with
      | nil => exact absurd rfl hne₂
      | cons c t =>
        have hc : c ∈ k' ++ [rbrace, rbrace] := by
          rw [hrest₂]
          exact List.mem_append.mpr (Or.inr (List.mem_cons_self c t))
        have hlc : ¬lbrace = c := by
          rcases List.mem_append.mp hc with hm | hm
          · exact fun hh => hk'l (hh ▸ hm)
          · intro hh
            apply lbrace_ne_rbrace
            rw [hh]
            rcases List.mem_cons.mp hm with h1 | h1
            · exact h1
            · simpa using h1
        rw [List.cons_append]
        exact isPrefixOf_head_ne _ _ _ _ hlc

theorem patKey_eq (k : String) :
    ("\x7b\x7b" ++ k ++ "\x7d\x7d").data = patKey k := by
  rw [String.data_append, String.data_append]
  rw [show "\x7b\x7b".data = [lbrace, lbrace] from by decide]
  rw [show "\x7d\x7d".data = [rbrace, rbrace] from by decide]
  simp [patKey]

theorem renderSeg_hole_data (k : String) :
    (renderSeg (Seg.hole k)).data = patKey k :=
  patKey_eq k

theorem renderTemplate_data_cons (sg : Seg) (segs : List Seg) :
    (renderTemplate (sg :: segs)).data =
      (renderSeg sg).data ++ (renderTemplate segs).data :=
  String.data_append _ _

theorem patKey_ne_nil (k : String) : patKey k ≠ [] := by
  simp [patKey]

theorem litReplace_renderTemplate (k : String) (v : List Char) (hk : braceFree k) :
    ∀ (segs : List Seg), cleanSegs segs →
      litReplace (patKey k) v (renderTemplate segs).data =
        (renderTemplate (segs.map (replaceHoleSeg k ⟨v⟩))).data := by
  intro segs
  induction segs with
  | nil =>
    intro _
    rw [show (renderTemplate []).data = [] from rfl, litReplace_nil]
    rfl
  | cons sg segs ih =>
    intro hsegs
    have hsg := hsegs sg (List.mem_cons_self _ _)
    have hrest : cleanSegs segs := fun s hs => hsegs s (List.mem_cons_of_mem _ hs)
    cases sg with
    | lit s =>
      rw [renderTemplate_data_cons]
      have hdata : (renderSeg (Seg.lit s)).data = s.data := rfl
      rw [hdata]
      have hnm : noMatchIn (patKey k) s.data (renderTemplate segs).data := by
        show noMatchIn (lbrace :: (lbrace :: (k.data ++ [rbrace, rbrace]))) s.data _
        exact noMatchIn_braceFree _ _ _ hsg.1
      rw [litReplace_append_noMatch _ _ _ _ hnm]
      rw [List.map_cons]
      have hmap : replaceHoleSeg k ⟨v⟩ (Seg.lit s) = Seg.lit s := rfl
      rw [hmap, renderTemplate_data_cons, hdata, ih hrest]
    | hole k' =>
      by_cases hkk : k' = k
      · subst hkk
        rw [renderTemplate_data_cons, renderSeg_hole_data]
        have hshape : patKey k' ++ (renderTemplate segs).data =
            patKey k' ++ (renderTemplate segs).data := rfl
        rw [litReplace_match_head _ _ _ (patKey_ne_nil k')]
        rw [List.map_cons]
        have hmap : replaceHoleSeg k' ⟨v⟩ (Seg.hole k') = Seg.lit ⟨v⟩ := by
          simp [replaceHoleSeg]
        rw [hmap, renderTemplate_data_cons]
        have hlit : (renderSeg (Seg.lit ⟨v⟩)).data = v := rfl
        rw [hlit, ih hrest]
      · rw [renderTemplate_data_cons, renderSeg_hole_data]
        have hd : k.data ≠ k'.data := fun hh => hkk (String.ext hh).symm
        rw [litReplace_append_noMatch _ _ _ _
          (by
            have := noMatchIn_hole k.data k'.data (renderTemplate segs).data
              hk.2 hsg.2 hsg.1 hd
            simpa [patKey] using this)]
        rw [List.map_cons]
        have hmap : replaceHoleSeg k ⟨v⟩ (Seg.hole k') = Seg.hole k' := by
          simp [replaceHoleSeg, hkk]
        rw [hmap, renderTemplate_data_cons, renderSeg_hole_data, ih hrest]

theorem jsReplaceAll_renderTemplate (k v : String) (hk : braceFree k)
    (hv : '$' ∉ v.data) (segs : List Seg) (hsegs : cleanSegs segs) :
    jsReplaceAll (renderTemplate segs) ("\x7b\x7b" ++ k ++ "\x7d\x7d") v =
      renderTemplate (segs.map (replaceHoleSeg k v)) := by
  unfold jsReplaceAll
  have hdata : replaceGo ("\x7b\x7b" ++ k ++ "\x7d\x7d").data v.data []
      (renderTemplate segs).data =
      (renderTemplate (segs.map (replaceHoleSeg k v))).data := by
    rw [replaceGo_eq_litReplace _ _ hv (renderTemplate segs).data.length _ le_rfl]
    rw [patKey_eq]
    have := litReplace_renderTemplate k v.data hk segs hsegs
    simpa using this
  rw [hdata]

theorem substSeg_nil (sg : Seg) : substSeg [] sg = renderSeg sg := by
  cases sg <;> rfl

theorem specSubst_nil (segs : List Seg) : specSubst [] segs = renderTemplate segs := by
  induction segs with
  | nil => rfl
  | cons sg segs ih =>
    show substSeg [] sg ++ specSubst [] segs = renderSeg sg ++ renderTemplate segs
    rw [substSeg_nil, ih]

theorem substSeg_replaceHole (k : String) (v : Option String)
    (vars' : List (String × Option String)) (sg : Seg) :
    substSeg vars' (replaceHoleSeg k (v.getD "") sg) = substSeg ((k, v) :: vars') sg := by
  cases sg with
  | lit s => rfl
  | hole k' =>
    by_cases h : k' = k
    · subst h
      have h1 : replaceHoleSeg k' (v.getD "") (Seg.hole k') = Seg.lit (v.getD "") := by
        simp [replaceHoleSeg]
      rw [h1]
      simp only [substSeg]
      rw [List.find?_cons_of_pos _ (by simp)]
    · have h1 : replaceHoleSeg k (v.getD "") (Seg.hole k') = Seg.hole k' := by
        simp [replaceHoleSeg, h]
      rw [h1]
      simp only [substSeg]
      have hne : ¬k = k' := fun hh => h hh.symm
      rw [List.find?_cons_of_neg _ (by simp [hne])]

theorem specSubst_replaceHole (k : String) (v : Option String)
    (vars' : List (String × Option String)) (segs : List Seg) :
    specSubst vars' (segs.map (replaceHoleSeg k (v.getD ""))) =
      specSubst ((k, v) :: vars') segs := by
  induction segs with
  | nil => rfl
  | cons sg segs ih =>
    rw [List.map_cons]
    show substSeg vars' (replaceHoleSeg k (v.getD "") sg) ++ _ = substSeg ((k, v) :: vars') sg ++ _
    rw [substSeg_replaceHole, ih]

theorem cleanSegs_map (k v : String) (segs : List Seg) (hsegs : cleanSegs segs)
    (hv : braceFree v) : cleanSegs (segs.map (replaceHoleSeg k v)) := by
  intro sg hsg
  rcases List.mem_map.mp hsg with ⟨sg', hsg', rfl⟩
  cases sg' with
  | lit s => exact hsegs (Seg.lit s) hsg'
  | hole k' =>
    by_cases h : k' = k
    · subst h
      have h1 : replaceHoleSeg k' v (Seg.hole k') = Seg.lit v := by simp [replaceHoleSeg]
      rw [h1]
      exact hv
    · have h1 : replaceHoleSeg k v (Seg.hole k') = Seg.hole k' := by
        simp [replaceHoleSeg, h]
      rw [h1]
      exact hsegs (Seg.hole k') hsg'

theorem regexLit_braceFree (s : String) (h : regexLit s) : braceFree s := by
  constructor
  · intro hm
    exact h lbrace hm (by decide)
  · intro hm
    exact h rbrace hm (by decide)

/-- C9 (amended): `replaceTemplateVariables` substitutes the keys
sequentially in object order through a JavaScript regex replace — the
regex is built from the key, and the replacement string is subject to
the ECMAScript `$`-substitution rules; on every template made of
brace-free literal text and well-formed `{{key}}` placeholders, and
for every variables map whose keys are regex-literal (no ECMAScript
`SyntaxCharacter`, so the built regex denotes the literal `{{key}}`
and `new RegExp` cannot throw) and whose values are brace-free and
contain no `$`, the result is exactly the claimed simultaneous
substitution: each placeholder whose key is in the map becomes the
mapped value (`undefined` or empty value becoming the empty string)
and all other text — including placeholders whose names are not keys
of the map — is unchanged. -/
theorem replaceTemplateVariables_clean (segs : List Seg)
    (vars : List (String × Option String)) (hsegs : cleanSegs segs)
    (hvars : ∀ kv ∈ vars,
      regexLit kv.1 ∧ braceFree (kv.2.getD "") ∧ '$' ∉ (kv.2.getD "").data) :
    replaceTemplateVariables (renderTemplate segs) vars = specSubst vars segs := by
  induction vars generalizing segs with
  | nil => exact (specSubst_nil segs).symm
  | cons kv vars' ih =>
    obtain ⟨k, v⟩ := kv
    have hkv := hvars (k, v) (List.mem_cons_self _ _)
    unfold replaceTemplateVariables
    rw [List.foldl_cons]
    show List.foldl _ (jsReplaceAll (renderTemplate segs) ("\x7b\x7b" ++ k ++ "\x7d\x7d")
      ((v.getD ""))) vars' = _
    rw [jsReplaceAll_renderTemplate k (v.getD "") (regexLit_braceFree k hkv.1)
      hkv.2.2 segs hsegs]
    have hclean' := cleanSegs_map k (v.getD "") segs hsegs hkv.2.1
    have := ih (segs.map (replaceHoleSeg k (v.getD ""))) hclean'
      (fun kv' hkv' => hvars kv' (List.mem_cons_of_mem _ hkv'))
    unfold replaceTemplateVariables at this
    rw [this, specSubst_replaceHole]

/-- C9 counterexample: on the template `{{name}}` with the mapped value
`$$`, the claimed behaviour — replace the placeholder with the mapped
value — would yield `$$` (the simultaneous substitution), but the code
yields `$`, because JavaScript `String.replace` interprets `$$` in the
replacement string as an escaped dollar sign.  The key `name` is
regex-literal, so on this input the modelled scan coincides with the
source's regex replace exactly. -/
theorem replaceTemplateVariables_dollar_cex :
    replaceTemplateVariables (renderTemplate [Seg.hole "name"]) [("name", some "$$")]
      = "$" ∧
    specSubst [("name", some "$$")] [Seg.hole "name"] = "$$" ∧
    replaceTemplateVariables (renderTemplate [Seg.hole "name"]) [("name", some "$$")]
      ≠ specSubst [("name", some "$$")] [Seg.hole "name"] := by
  have h1 : replaceTemplateVariables (renderTemplate [Seg.hole "name"])
      [("name", some "$$")] = "$" := by
    simp +decide [replaceTemplateVariables, jsReplaceAll, replaceGo, expandRepl,
      renderTemplate, renderSeg]
  have h2 : specSubst [("name", some "$$")] [Seg.hole "name"] = "$$" := by decide
  refine ⟨h1, h2, ?_⟩
  rw [h1, h2]
  decide

theorem replaceTemplateVariables_clean_witness :
    replaceTemplateVariables
        (renderTemplate
          [Seg.lit "Hello ", Seg.hole "name", Seg.lit "!", Seg.hole "missing"])
        [("name", some "Ada"), ("email", none)] =
      specSubst [("name", some "Ada"), ("email", none)]
        [Seg.lit "Hello ", Seg.hole "name", Seg.lit "!", Seg.hole "missing"] :=
  replaceTemplateVariables_clean
    [Seg.lit "Hello ", Seg.hole "name", Seg.lit "!", Seg.hole "missing"]
    [("name", some "Ada"), ("email", none)] (by decide) (by decide)
